import Mathlib

/-!
Verification development for the claude-prune session-pruning tool.

The transcript is a list of lines; each line either decodes as a JSON
record or is kept as raw text.  JavaScript numbers are modelled by exact
integers/rationals, JavaScript `undefined` results (out-of-range array
reads, comparisons against `undefined`) are modelled with `Option` and
explicit helper functions (`jsGet`, `jsGeOpt`, `jsLtOpt`).
-/

namespace ClaudePrune

/-- The nested usage/token-accounting sub-object of a record
(`usage` or `message.usage` in the JSON). -/
structure Usage where
  cache_read_input_tokens : Option Int := none
  deriving Repr, DecidableEq, Inhabited

/-- A decoded JSON record.  Fields mirror the attributes the source reads:
`type`, `content`, `message.content`, `usage`, `message.usage`,
`tool_use.name` (a nameless descriptor is modelled by the name `""`),
presence of a `tool_uses` list, `error` and `timestamp`.  `serLength`
carries the length of `JSON.stringify(obj)` as data. -/
structure JsonObj where
  type : Option String := none
  content : Option String := none
  messageContent : Option String := none
  usage : Option Usage := none
  messageUsage : Option Usage := none
  tool_use : Option String := none
  tool_uses : Bool := false
  errorField : Option String := none
  timestamp : Option String := none
  serLength : Nat := 0
  deriving Repr, DecidableEq, Inhabited

/-- One transcript line: either a decodable JSON record or raw
(non-JSON) text, which `JSON.parse` rejects. -/
inductive Line where
  | raw (s : String)
  | json (o : JsonObj)
  deriving Repr, DecidableEq, Inhabited

/-- Embeds `MSG_TYPES` from `types.ts`. -/
def MSG_TYPES : List String := ["user", "assistant", "system"]

/-- The discriminant of a line (`JSON.parse(ln).type`); `none` models
both a parse failure and an absent `type` field. -/
def lineType : Line → Option String
  | .raw _ => none
  | .json o => o.type

/-- A line whose decoded discriminant is in `MSG_TYPES`
(`isMessageLine` in `pruner.ts` and the inline checks elsewhere). -/
def isTurn (l : Line) : Bool :=
  match l with
  | .raw _ => false
  | .json o =>
    match o.type with
    | some t => MSG_TYPES.contains t
    | none => false

/-- JavaScript `a || b` for strings: the empty string is falsy. -/
def jsOrStr : Option String → String → String
  | some s, d => if s = "" then d else s
  | none, d => d

/-- Embeds `obj.content || obj.message?.content || ''`. -/
def contentOf (o : JsonObj) : String :=
  jsOrStr o.content (jsOrStr o.messageContent "")

/-- Embeds `obj.usage || obj.message?.usage` (objects are always truthy). -/
def usageOf (o : JsonObj) : Option Usage :=
  o.usage <|> o.messageUsage

/-- Prefix test on character lists (structural, so that the kernel can
evaluate the classifiers on concrete transcripts). -/
def charsPrefix : List Char → List Char → Bool
  | [], _ => true
  | _ :: _, [] => false
  | a :: w, b :: s => a == b && charsPrefix w s

/-- Whether `w` occurs as a contiguous run inside `s`. -/
def charsContain : List Char → List Char → Bool
  | [], w => w.isEmpty
  | c :: rest, w => charsPrefix w (c :: rest) || charsContain rest w

/-- The remainder of `s` after the first occurrence of `w`, if any. -/
def charsAfterFirst : List Char → List Char → Option (List Char)
  | [], w => if w.isEmpty then some [] else none
  | c :: rest, w =>
    if charsPrefix w (c :: rest) then some ((c :: rest).drop w.length)
    else charsAfterFirst rest w

/-- Whether `w` occurs as a substring of `s` (used to model regex
alternation over literal words). -/
def containsWord (s w : String) : Bool :=
  charsContain s.data w.data

/-- Two non-overlapping fenced-block delimiters: the
`/\u0060\u0060\u0060[\s\S]*?\u0060\u0060\u0060/` test of `detectCode`. -/
def hasCodeFence (s : String) : Bool :=
  match charsAfterFirst s.data ("```".data) with
  | some r => charsContain r ("```".data)
  | none => false

/-- Split a character list at a separator character. -/
def splitChars (sep : Char) : List Char → List (List Char)
  | [] => [[]]
  | c :: rest =>
    let r := splitChars sep rest
    if c == sep then [] :: r
    else
      match r with
      | [] => [[c]]
      | h :: t => (c :: h) :: t

/-- Lower-case a string character-wise (`content.toLowerCase()`). -/
def lowerStr (s : String) : String :=
  ⟨s.data.map Char.toLower⟩

/-- The declaration keywords of the `detectCode` regex, each followed by
the single-space approximation of `\s+`. -/
def declKeywords : List String :=
  ["import ", "export ", "function ", "class ", "const ", "let ", "var "]

/-- A line beginning, after leading whitespace, with a declaration
keyword: the multiline `^\s*(import|export|...)\s+` test of
`detectCode`. -/
def hasDeclLine (s : String) : Bool :=
  (splitChars (Char.ofNat 10) s.data).any (fun ln =>
    declKeywords.any (fun kw => charsPrefix kw.data (ln.dropWhile (fun c => c.isWhitespace))))

/-- Embeds `detectCode`: a fenced code block or a declaration-keyword line. -/
def detectCode (o : JsonObj) : Bool :=
  hasCodeFence (contentOf o) || hasDeclLine (contentOf o)

/-- The word list of the `detectError` regex. -/
def errorWords : List String :=
  ["error", "exception", "failed", "failure", "bug", "issue", "problem"]

/-- Embeds `detectError`: a lexical match on the lower-cased content, or a
non-empty explicit `error` payload. -/
def detectError (o : JsonObj) : Bool :=
  errorWords.any (fun w => containsWord (lowerStr (contentOf o)) w) ||
    (match o.errorField with
     | some e => decide (0 < e.length)
     | none => false)

/-- Embeds `detectFileEdit`: the tool-invocation name is exactly
Edit, Write or MultiEdit. -/
def detectFileEdit (o : JsonObj) : Bool :=
  o.tool_use == some "Edit" || o.tool_use == some "Write" || o.tool_use == some "MultiEdit"

/-- Embeds `detectToolUse`: `!!obj.tool_use || !!obj.tool_uses`. -/
def detectToolUse (o : JsonObj) : Bool :=
  o.tool_use.isSome || o.tool_uses

/-- Embeds `MessageInfo` from `analyzer.ts`. -/
structure MessageInfo where
  index : Nat
  type : String
  content : String
  hasCode : Bool
  hasError : Bool
  hasFileEdit : Bool
  hasTool : Bool
  length : Nat
  timestamp : Option String
  deriving Repr, DecidableEq, Inhabited

/-- The `MessageInfo` built for the message at global position `i`. -/
def mkInfo (i : Nat) (o : JsonObj) (t : String) : MessageInfo :=
  { index := i
    type := t
    content := contentOf o
    hasCode := detectCode o
    hasError := detectError o
    hasFileEdit := detectFileEdit o
    hasTool := detectToolUse o
    length := o.serLength
    timestamp := o.timestamp }

/-- The first pass of `SessionAnalyzer.analyze`, with `i` the global
position of the head of the remaining list: position 0 is skipped,
non-JSON lines are skipped, lines whose `type` is in `MSG_TYPES`
contribute a `MessageInfo`. -/
def messageDetailsAux (i : Nat) : List Line → List MessageInfo
  | [] => []
  | l :: rest =>
    if i = 0 then messageDetailsAux (i + 1) rest
    else
      match l with
      | .raw _ => messageDetailsAux (i + 1) rest
      | .json o =>
        match o.type with
        | some t =>
          if MSG_TYPES.contains t then mkInfo i o t :: messageDetailsAux (i + 1) rest
          else messageDetailsAux (i + 1) rest
        | none => messageDetailsAux (i + 1) rest

/-- Embeds `SessionAnalyzer.messageDetails`. -/
def messageDetails (lines : List Line) : List MessageInfo :=
  messageDetailsAux 0 lines

/-- The scan locating all message positions (`messageIndices` in the
analyzer, `msgIndexes`/`msgIndices` in both legacy pruning functions —
the three source loops are identical): positions `> 0` whose line has a
turn discriminant. -/
def turnIdxAux (i : Nat) : List Line → List Nat
  | [] => []
  | l :: rest =>
    if i ≠ 0 ∧ isTurn l then i :: turnIdxAux (i + 1) rest
    else turnIdxAux (i + 1) rest

/-- The scan locating assistant positions (`assistantIndices` /
`assistantIndexes` in the same three loops). -/
def asstIdxAux (i : Nat) : List Line → List Nat
  | [] => []
  | l :: rest =>
    if i ≠ 0 ∧ isTurn l ∧ lineType l = some "assistant" then i :: asstIdxAux (i + 1) rest
    else asstIdxAux (i + 1) rest

/-- Embeds `SessionAnalyzer.getMessageIndices` (and the `msgIndexes` pass of the
legacy pruning functions). -/
def messageIndices (lines : List Line) : List Nat :=
  turnIdxAux 0 lines

/-- The assistant-position list of the same passes. -/
def assistantIndices (lines : List Line) : List Nat :=
  asstIdxAux 0 lines

/-! ### The cache display fix-up (`applyCacheTokenHack`) -/

/-- The cache-read token count reachable from a line
(`(obj.usage || obj.message?.usage)?.cache_read_input_tokens`). -/
def cacheOf (l : Line) : Option Int :=
  match l with
  | .raw _ => none
  | .json o =>
    match usageOf o with
    | some u => u.cache_read_input_tokens
    | none => none

/-- Embeds `usageObj?.cache_read_input_tokens && usageObj.cache_read_input_tokens > 0`. -/
def hasPositiveCache (l : Line) : Bool :=
  match cacheOf l with
  | some v => decide (0 < v)
  | none => false

/-- The first scan of `applyCacheTokenHack`: fold left over all lines
(position 0 included), remembering the last position with a positive
cache-read count; `-1` if none. -/
def lastCacheIdxAux : List Line → Nat → Int → Int
  | [], _, acc => acc
  | l :: rest, i, acc =>
    lastCacheIdxAux rest (i + 1) (if hasPositiveCache l then (i : Int) else acc)

/-- Embeds `lastNonZeroCacheLineIndex` of `applyCacheTokenHack`. -/
def lastNonZeroCacheLineIndex (lines : List Line) : Int :=
  lastCacheIdxAux lines 0 (-1)

/-- The rewrite applied to the targeted line: set
`cache_read_input_tokens` to 0 in `obj.usage` if present, otherwise in
`obj.message.usage`; a line without a usage object, or a non-JSON line,
is returned unchanged (in the source either via the `if (usageObj)`
guard or via the caught `TypeError`). -/
def zeroCacheLine : Line → Line
  | .raw s => .raw s
  | .json o =>
    match o.usage with
    | some u => .json { o with usage := some { u with cache_read_input_tokens := some 0 } }
    | none =>
      match o.messageUsage with
      | some u => .json { o with messageUsage := some { u with cache_read_input_tokens := some 0 } }
      | none => .json o

/-- The second pass of `applyCacheTokenHack`: map over the lines,
rewriting only the targeted position. -/
def hackMapAux (target : Int) (i : Nat) : List Line → List Line
  | [] => []
  | l :: rest =>
    (if (i : Int) = target then zeroCacheLine l else l) :: hackMapAux target (i + 1) rest

/-- Embeds `SmartPruner.applyCacheTokenHack` (the identical inline passes of the
legacy `pruneSessionLines` included). -/
def applyCacheTokenHack (lines : List Line) : List Line :=
  hackMapAux (lastNonZeroCacheLineIndex lines) 0 lines

/-! ### The pruning transform (`pruneWithIndices`) -/

/-- Embeds `PruneResult` from `pruner.ts`. -/
structure PruneResult where
  outLines : List Line
  kept : Nat
  dropped : Nat
  strategy : String
  deriving Repr, DecidableEq

/-- The per-line pass of `pruneWithIndices` over the processed lines,
with `i` the position of the head: position 0 is skipped (already
emitted), message lines are copied iff their position is in the kept
set (counting kept/dropped), non-message lines are always copied. -/
def prunePassAux (keptSet : List Nat) (i : Nat) : List Line → List Line × Nat × Nat
  | [] => ([], 0, 0)
  | l :: rest =>
    let r := prunePassAux keptSet (i + 1) rest
    if i = 0 then r
    else if isTurn l then
      if i ∈ keptSet then (l :: r.1, r.2.1 + 1, r.2.2) else (r.1, r.2.1, r.2.2 + 1)
    else (l :: r.1, r.2.1, r.2.2)

/-- Embeds `SmartPruner.pruneWithIndices`: emit the original first line, apply
the cache fix-up to the whole sequence, then keep/drop. -/
def pruneWithIndices (lines : List Line) (indicesToKeep : List Nat) (strategy : String) :
    PruneResult :=
  let processed := applyCacheTokenHack lines
  let r := prunePassAux indicesToKeep 0 processed
  { outLines := lines.take 1 ++ r.1
    kept := r.2.1
    dropped := r.2.2
    strategy := strategy }

/-! ### Characterization of the cache display fix-up (claim C1) -/

theorem lastCacheIdxAux_of_none (ls : List Line) :
    ∀ (i : Nat) (acc : Int), (∀ l ∈ ls, hasPositiveCache l = false) →
      lastCacheIdxAux ls i acc = acc := by
  induction ls with
  | nil => intro i acc _; rfl
  | cons x rest ih =>
    intro i acc h
    rw [lastCacheIdxAux, h x (List.mem_cons_self x rest)]
    simpa using ih (i + 1) acc (fun l hl => h l (List.mem_cons_of_mem _ hl))

theorem lastCacheIdxAux_of_last (ls : List Line) :
    ∀ (i : Nat) (acc : Int) (t : Nat) (l : Line), ls[t]? = some l →
      hasPositiveCache l = true →
      (∀ j l', t < j → ls[j]? = some l' → hasPositiveCache l' = false) →
      lastCacheIdxAux ls i acc = (i : Int) + t := by
  induction ls with
  | nil => intro i acc t l h; simp at h
  | cons x rest ih =>
    intro i acc t l hget hpos hafter
    match t with
    | 0 =>
      simp only [List.getElem?_cons_zero, Option.some.injEq] at hget
      subst hget
      rw [lastCacheIdxAux, hpos]
      simp only [if_true]
      rw [lastCacheIdxAux_of_none rest (i + 1) ((i : Nat) : Int) ?_]
      · simp
      · intro l' hl'
        obtain ⟨n, hn⟩ := List.mem_iff_getElem?.mp hl'
        exact hafter (n + 1) l' (Nat.succ_pos n) (by simpa using hn)
    | k + 1 =>
      simp only [List.getElem?_cons_succ] at hget
      rw [lastCacheIdxAux, ih (i + 1) _ k l hget hpos ?_]
      · push_cast; ring
      · intro j l' hj hget'
        exact hafter (j + 1) l' (by omega) (by simpa using hget')

theorem hackMapAux_of_lt (ls : List Line) :
    ∀ (i : Nat) (target : Int), target < (i : Int) →
      hackMapAux target i ls = ls := by
  induction ls with
  | nil => intro i target _; rfl
  | cons x rest ih =>
    intro i target h
    rw [hackMapAux, if_neg (by omega), ih (i + 1) target (by push_cast; omega)]

theorem hackMapAux_set (ls : List Line) :
    ∀ (i t : Nat) (l : Line), ls[t]? = some l →
      hackMapAux ((i + t : Nat) : Int) i ls = ls.set t (zeroCacheLine l) := by
  induction ls with
  | nil => intro i t l h; simp at h
  | cons x rest ih =>
    intro i t l hget
    match t with
    | 0 =>
      simp only [List.getElem?_cons_zero, Option.some.injEq] at hget
      subst hget
      rw [hackMapAux, if_pos (by push_cast; ring), List.set_cons_zero,
        hackMapAux_of_lt rest (i + 1) _ (by push_cast; omega)]
    | k + 1 =>
      simp only [List.getElem?_cons_succ] at hget
      rw [hackMapAux, if_neg (by push_cast; omega), List.set_cons_succ]
      have : ((i + (k + 1) : Nat) : Int) = (((i + 1) + k : Nat) : Int) := by push_cast; ring
      rw [this, ih (i + 1) k l hget]

/-- helper: a line with a positive cache-read count has its count
rewritten to zero by `zeroCacheLine`. -/
theorem cacheOf_zeroCacheLine (l : Line) (h : hasPositiveCache l = true) :
    cacheOf (zeroCacheLine l) = some 0 := by
  match l with
  | .raw s => simp [hasPositiveCache, cacheOf] at h
  | .json o =>
    match hu : o.usage with
    | some u => simp [zeroCacheLine, hu, cacheOf, usageOf]
    | none =>
      match hm : o.messageUsage with
      | some u => simp [zeroCacheLine, hu, hm, cacheOf, usageOf]
      | none => simp [hasPositiveCache, cacheOf, usageOf, hu, hm] at h

/-- C1: the cache display fix-up of the pruning transform.  If no line
has a positive cache-read token count the line sequence is unchanged;
otherwise exactly the line at the highest such position is replaced by
its `zeroCacheLine` rewrite (cache-read count forced to 0), every other
line keeping its original value.  The fix-up takes no Selection, so the
targeted line is the same whether it is later kept or dropped. -/
theorem cache_fixup_targets_last_positive (lines : List Line) :
    ((∀ l ∈ lines, hasPositiveCache l = false) → applyCacheTokenHack lines = lines)
    ∧ (∀ t l, lines[t]? = some l → hasPositiveCache l = true →
        (∀ j l', t < j → lines[j]? = some l' → hasPositiveCache l' = false) →
        applyCacheTokenHack lines = lines.set t (zeroCacheLine l))
    ∧ (∀ l, hasPositiveCache l = true → cacheOf (zeroCacheLine l) = some 0) := by
  refine ⟨?_, ?_, fun l h => cacheOf_zeroCacheLine l h⟩
  · intro h
    rw [applyCacheTokenHack, lastNonZeroCacheLineIndex, lastCacheIdxAux_of_none lines 0 (-1) h,
      hackMapAux_of_lt lines 0 (-1) (by omega)]
  · intro t l hget hpos hafter
    rw [applyCacheTokenHack, lastNonZeroCacheLineIndex,
      lastCacheIdxAux_of_last lines 0 (-1) t l hget hpos hafter]
    have h0 : ((0 : Nat) : Int) + t = ((0 + t : Nat) : Int) := by push_cast; ring
    rw [h0, hackMapAux_set lines 0 t l hget]

/-- A line of the witness transcript carrying a positive cache-read count. -/
def cacheLine (v : Int) : Line :=
  .json { type := some "assistant", usage := some { cache_read_input_tokens := some v } }

/-- A 10-line transcript with positive cache-read counts exactly at
positions 2, 5 and 9. -/
def exCacheLines : List Line :=
  [.json { type := some "metadata" }, .json { type := some "user" }, cacheLine 100,
   .json { type := some "user" }, .raw "diag", cacheLine 200,
   .json { type := some "assistant" }, .json { type := some "user" }, .raw "x", cacheLine 300]

/-- Witness for C1: on `exCacheLines` the fix-up rewrites exactly
position 9 (the last positive one). -/
theorem cache_fixup_witness :
    applyCacheTokenHack exCacheLines = exCacheLines.set 9 (zeroCacheLine (cacheLine 300)) :=
  (cache_fixup_targets_last_positive exCacheLines).2.1 9 (cacheLine 300) (by decide) (by decide)
    (fun j l' hj hget => by
      have hlen : exCacheLines.length = 10 := rfl
      have hnone : exCacheLines[j]? = none := List.getElem?_eq_none (by omega)
      rw [hnone] at hget
      cases hget)

/-! ### Frame properties of the pruning transform (claims C3 and C8) -/

/-- The cache rewrite never changes a line's discriminant. -/
theorem isTurn_zeroCacheLine (l : Line) : isTurn (zeroCacheLine l) = isTurn l := by
  match l with
  | .raw s => rfl
  | .json o =>
    match hu : o.usage with
    | some u => simp [zeroCacheLine, hu, isTurn]
    | none =>
      match hm : o.messageUsage with
      | some u => simp [zeroCacheLine, hu, hm, isTurn]
      | none => simp [zeroCacheLine, hu, hm]

theorem countP_hackMapAux (p : Line → Bool) (hp : ∀ l, p (zeroCacheLine l) = p l)
    (ls : List Line) : ∀ (t : Int) (i : Nat), (hackMapAux t i ls).countP p = ls.countP p := by
  induction ls with
  | nil => intro t i; rfl
  | cons x rest ih =>
    intro t i
    by_cases h : (i : Int) = t <;>
      simp [hackMapAux, h, List.countP_cons, ih t (i + 1), hp]

theorem hackMapAux_getElem? (ls : List Line) : ∀ (t : Int) (i j : Nat),
    (hackMapAux t i ls)[j]? =
      (ls[j]?).map (fun l => if ((i + j : Nat) : Int) = t then zeroCacheLine l else l) := by
  induction ls with
  | nil => intro t i j; simp [hackMapAux]
  | cons x rest ih =>
    intro t i j
    match j with
    | 0 => simp [hackMapAux]
    | k + 1 =>
      simp only [hackMapAux, List.getElem?_cons_succ, ih t (i + 1) k]
      have : (i + 1) + k = i + (k + 1) := by omega
      rw [this]

/-- The pass of `pruneWithIndices` preserves the subsequence of
non-message lines of its input (positions ≥ 1). -/
theorem prunePassAux_filter_nonturn (ks : List Nat) (tl : List Line) :
    ∀ i : Nat, 1 ≤ i →
      (prunePassAux ks i tl).1.filter (fun l => !isTurn l) = tl.filter (fun l => !isTurn l) := by
  induction tl with
  | nil => intro i _; rfl
  | cons l rest ih =>
    intro i hi
    rw [prunePassAux, if_neg (by omega)]
    by_cases ht : isTurn l
    · by_cases hk : i ∈ ks <;> simp [ht, hk, List.filter_cons, ih (i + 1) (by omega)]
    · simp only [Bool.not_eq_true] at ht
      simp [ht, List.filter_cons, ih (i + 1) (by omega)]

/-- The pass of `pruneWithIndices` counts every message line of its
input (positions ≥ 1) exactly once, as kept or as dropped. -/
theorem prunePassAux_kept_dropped (ks : List Nat) (tl : List Line) :
    ∀ i : Nat, 1 ≤ i →
      (prunePassAux ks i tl).2.1 + (prunePassAux ks i tl).2.2
        = tl.countP (fun l => isTurn l) := by
  induction tl with
  | nil => intro i _; rfl
  | cons l rest ih =>
    intro i hi
    rw [prunePassAux, if_neg (by omega)]
    by_cases ht : isTurn l
    · by_cases hk : i ∈ ks <;>
        simp [ht, hk, List.countP_cons] <;> rw [← ih (i + 1) (by omega)] <;> ring
    · simp only [Bool.not_eq_true] at ht
      simp [ht, List.countP_cons, ih (i + 1) (by omega)]

theorem prunePassAux_zero (ks : List Nat) (h : Line) (t : List Line) :
    prunePassAux ks 0 (h :: t) = prunePassAux ks 1 t := by
  rw [prunePassAux]; simp

theorem applyCacheTokenHack_cons (l0 : Line) (tl : List Line) :
    applyCacheTokenHack (l0 :: tl)
      = (if (0 : Int) = lastNonZeroCacheLineIndex (l0 :: tl) then zeroCacheLine l0 else l0)
        :: hackMapAux (lastNonZeroCacheLineIndex (l0 :: tl)) 1 tl := by
  rw [applyCacheTokenHack, hackMapAux]
  norm_num

/-- C8: for every input and every Selection, the transform's kept count
plus its dropped count equals the number of turn lines at positions
`> 0` of the input. -/
theorem kept_dropped_conservation (lines : List Line) (sel : List Nat) (strat : String) :
    (pruneWithIndices lines sel strat).kept + (pruneWithIndices lines sel strat).dropped
      = ((lines.drop 1).filter (fun l => isTurn l)).length := by
  rw [← List.countP_eq_length_filter]
  cases lines with
  | nil => rfl
  | cons l0 tl =>
    simp only [pruneWithIndices, applyCacheTokenHack_cons, prunePassAux_zero, List.drop_succ_cons,
      List.drop_zero]
    rw [prunePassAux_kept_dropped sel _ 1 (by omega),
      countP_hackMapAux _ (fun l => isTurn_zeroCacheLine l) tl]

/-- The non-turn JSON line (discriminant `tool_result`) carrying the
last positive cache-read count of `exNonTurnLines`. -/
def exToolCacheLine : Line :=
  .json { type := some "tool_result", usage := some { cache_read_input_tokens := some 100 } }

/-- A 2-line transcript whose only positive cache-read count sits on a
non-turn line at position 1. -/
def exNonTurnLines : List Line :=
  [.json { type := some "metadata" }, exToolCacheLine]

/-- Counterexample to C3 as stated: on `exNonTurnLines` (any Selection,
here the empty one) the non-turn line at position 1 appears in the
output, but rewritten by the cache fix-up, not verbatim. -/
theorem nonturn_not_verbatim_counterexample :
    isTurn exToolCacheLine = false
    ∧ (pruneWithIndices exNonTurnLines [] "s").outLines[1]? = some (zeroCacheLine exToolCacheLine)
    ∧ exNonTurnLines[1]? = some exToolCacheLine
    ∧ zeroCacheLine exToolCacheLine ≠ exToolCacheLine := by decide

/-- C3 (amended): every opaque or non-turn line at position `> 0`
appears in the output in its input order and with invariant count, and
every line is passed through verbatim except the single target of the
cache fix-up: (1) the non-turn part of the output tail is exactly the
non-turn part of the fixed-up input tail, (2) its length equals the
number of non-turn input lines at positions `> 0`, (3) every position
other than the fix-up target is passed through unchanged. -/
theorem nonturn_lines_preserved (lines : List Line) (sel : List Nat) (strat : String) :
    ((pruneWithIndices lines sel strat).outLines.drop 1).filter (fun l => !isTurn l)
        = ((applyCacheTokenHack lines).drop 1).filter (fun l => !isTurn l)
    ∧ (((applyCacheTokenHack lines).drop 1).filter (fun l => !isTurn l)).length
        = ((lines.drop 1).filter (fun l => !isTurn l)).length
    ∧ (∀ i : Nat, (i : Int) ≠ lastNonZeroCacheLineIndex lines →
        (applyCacheTokenHack lines)[i]? = lines[i]?) := by
  refine ⟨?_, ?_, ?_⟩
  · cases lines with
    | nil => rfl
    | cons l0 tl =>
      simp only [pruneWithIndices, applyCacheTokenHack_cons, prunePassAux_zero,
        List.take_cons, List.take_nil, List.cons_append, List.nil_append, List.drop_succ_cons,
        List.drop_zero]
      exact prunePassAux_filter_nonturn sel _ 1 (by omega)
  · cases lines with
    | nil => rfl
    | cons l0 tl =>
      simp only [applyCacheTokenHack_cons, List.drop_succ_cons, List.drop_zero,
        ← List.countP_eq_length_filter]
      exact countP_hackMapAux _ (fun l => by simp [isTurn_zeroCacheLine]) tl _ 1
  · intro i hi
    rw [applyCacheTokenHack, hackMapAux_getElem? lines _ 0 i]
    have : ((0 + i : Nat) : Int) ≠ lastNonZeroCacheLineIndex lines := by
      simpa using hi
    cases lines[i]? with
    | none => rfl
    | some l =>
      simp only [Option.map_some']
      rw [if_neg this]

/-- Witness for C3 (amended), conjunct (3): position 0 of
`exNonTurnLines` (whose fix-up target is position 1) is unchanged. -/
theorem nonturn_lines_preserved_witness :
    (applyCacheTokenHack exNonTurnLines)[0]? = exNonTurnLines[0]? :=
  (nonturn_lines_preserved exNonTurnLines [] "s").2.2 0 (by decide)

/-! ### Legacy compatibility mode (claims C4 and C9) -/

/-- JavaScript array read `l[i]` where `i` may be out of range (in
particular `i = l.length`, as happens for `keepN ≤ 0`): `undefined` is
modelled by `none`. -/
def jsGet (l : List Nat) (i : Int) : Option Nat :=
  if 0 ≤ i then l[i.toNat]? else none

/-- JavaScript `idx >= cutFrom` where `cutFrom` may be `undefined`;
every relational comparison against `undefined` is false. -/
def jsGeOpt (idx : Nat) : Option Nat → Bool
  | some c => decide (c ≤ idx)
  | none => false

/-- The four fields shared by the two legacy pruning entry points. -/
structure LegacyResult where
  outLines : List Line
  kept : Nat
  dropped : Nat
  assistantCount : Nat
  deriving Repr, DecidableEq

/-- The second pass of the exported legacy `pruneSessionLines`: same
shape as the pass of `pruneWithIndices`, but a kept turn is one whose
position satisfies `idx >= cutFrom` (with `cutFrom` possibly
`undefined`). -/
def legacyPassAux (cutFrom : Option Nat) (i : Nat) : List Line → List Line × Nat × Nat
  | [] => ([], 0, 0)
  | l :: rest =>
    let r := legacyPassAux cutFrom (i + 1) rest
    if i = 0 then r
    else if isTurn l then
      if jsGeOpt i cutFrom then (l :: r.1, r.2.1 + 1, r.2.2) else (r.1, r.2.1, r.2.2 + 1)
    else (l :: r.1, r.2.1, r.2.2)

/-- The exported legacy `pruneSessionLines` of the CLI module:
`keepNSafe = Math.max(0, keepN)`; when more assistant turns exist than
`keepNSafe`, the cutoff is `assistantIndexes[length - keepNSafe]`
(`undefined` when `keepNSafe = 0`), otherwise the initial `cutFrom = 0`
stands. -/
def pruneSessionLines (lines : List Line) (keepN : Int) : LegacyResult :=
  let assistantIndexes := assistantIndices lines
  let keepNSafe : Int := max 0 keepN
  let cutFrom : Option Nat :=
    if (assistantIndexes.length : Int) > keepNSafe then
      jsGet assistantIndexes ((assistantIndexes.length : Int) - keepNSafe)
    else some 0
  let processed := applyCacheTokenHack lines
  let r := legacyPassAux cutFrom 0 processed
  { outLines := lines.take 1 ++ r.1
    kept := r.2.1
    dropped := r.2.2
    assistantCount := assistantIndexes.length }

namespace SmartPruner

/-- Embeds `SmartPruner.pruneSessionLines`: no clamping of `keepN`; the kept
index set is built by filtering the message positions against the
(possibly `undefined`) cutoff, then fed through `pruneWithIndices`. -/
def pruneSessionLines (lines : List Line) (keepN : Int) : LegacyResult :=
  let msgIndices := messageIndices lines
  let assistantIdx := assistantIndices lines
  let indicesToKeep : List Nat :=
    if (assistantIdx.length : Int) > keepN then
      let cutFrom := jsGet assistantIdx ((assistantIdx.length : Int) - keepN)
      msgIndices.filter (fun idx => jsGeOpt idx cutFrom)
    else msgIndices
  let r := pruneWithIndices lines indicesToKeep s!"Keep last {keepN} assistant messages"
  { outLines := r.outLines
    kept := r.kept
    dropped := r.dropped
    assistantCount := assistantIdx.length }

end SmartPruner

/-- spec-side description of the legacy keep rule on the tail of the
line sequence: keep every non-turn line, and keep a turn line iff its
position (counted from `i`) is at least the cutoff `c`. -/
def keepTurnsFrom (c : Nat) (i : Nat) : List Line → List Line
  | [] => []
  | l :: rest =>
    if isTurn l ∧ i < c then keepTurnsFrom c (i + 1) rest
    else l :: keepTurnsFrom c (i + 1) rest

theorem mem_turnIdxAux (ls : List Line) :
    ∀ (i x : Nat), x ∈ turnIdxAux i ls ↔
      ∃ j l, ls[j]? = some l ∧ x = i + j ∧ x ≠ 0 ∧ isTurn l = true := by
  induction ls with
  | nil => intro i x; simp [turnIdxAux]
  | cons y rest ih =>
    intro i x
    rw [turnIdxAux]
    by_cases h : i ≠ 0 ∧ isTurn y
    · rw [if_pos h, List.mem_cons, ih (i + 1)]
      constructor
      · rintro (rfl | ⟨j, l, hget, rfl, hx0, ht⟩)
        · exact ⟨0, y, by simp, by omega, h.1, by simpa using h.2⟩
        · exact ⟨j + 1, l, by simpa using hget, by omega, hx0, ht⟩
      · rintro ⟨j, l, hget, rfl, hx0, ht⟩
        match j with
        | 0 => left; omega
        | k + 1 =>
          right
          exact ⟨k, l, by simpa using hget, by omega, hx0, ht⟩
    · rw [if_neg h, ih (i + 1)]
      constructor
      · rintro ⟨j, l, hget, rfl, hx0, ht⟩
        exact ⟨j + 1, l, by simpa using hget, by omega, hx0, ht⟩
      · rintro ⟨j, l, hget, rfl, hx0, ht⟩
        match j with
        | 0 =>
          simp only [List.getElem?_cons_zero, Option.some.injEq] at hget
          subst hget
          exact absurd ⟨by omega, ht⟩ h
        | k + 1 =>
          exact ⟨k, l, by simpa using hget, by omega, hx0, ht⟩

/-- A position is in the message-index list iff it is a nonzero
position holding a turn line. -/
theorem mem_messageIndices (lines : List Line) (pos : Nat) :
    pos ∈ messageIndices lines ↔
      ∃ l, lines[pos]? = some l ∧ pos ≠ 0 ∧ isTurn l = true := by
  rw [messageIndices, mem_turnIdxAux]
  constructor
  · rintro ⟨j, l, hget, rfl, h0, ht⟩
    exact ⟨l, by simpa using hget, h0, ht⟩
  · rintro ⟨l, hget, h0, ht⟩
    exact ⟨pos, l, by simpa using hget, by omega, h0, ht⟩

theorem turnIdxAux_zero_cons (l0 : Line) (tl : List Line) :
    turnIdxAux 0 (l0 :: tl) = turnIdxAux 1 tl := by
  rw [turnIdxAux]; simp

/-- The cache fix-up does not change which positions hold turns. -/
theorem turnIdxAux_hackMapAux (ls : List Line) : ∀ (t : Int) (i j : Nat),
    turnIdxAux i (hackMapAux t j ls) = turnIdxAux i ls := by
  induction ls with
  | nil => intro t i j; rfl
  | cons l rest ih =>
    intro t i j
    rw [hackMapAux]
    by_cases hc : (j : Int) = t
    · rw [if_pos hc, turnIdxAux, turnIdxAux]
      simp [isTurn_zeroCacheLine, ih]
    · rw [if_neg hc, turnIdxAux, turnIdxAux]
      simp [ih]

theorem legacyPassAux_zero (c : Option Nat) (h : Line) (t : List Line) :
    legacyPassAux c 0 (h :: t) = legacyPassAux c 1 t := by
  rw [legacyPassAux]; simp

/-- The two pruning passes agree whenever set membership and the cutoff
comparison agree on every turn line they visit. -/
theorem prunePassAux_eq_legacyPassAux (ks : List Nat) (c : Option Nat) (tl : List Line) :
    ∀ i : Nat,
      (∀ j l, tl[j]? = some l → isTurn l = true →
        ((i + j) ∈ ks ↔ jsGeOpt (i + j) c = true)) →
      prunePassAux ks i tl = legacyPassAux c i tl := by
  induction tl with
  | nil => intro i _; rfl
  | cons l rest ih =>
    intro i h
    have hrec : prunePassAux ks (i + 1) rest = legacyPassAux c (i + 1) rest := by
      apply ih
      intro j l' hget ht'
      have := h (j + 1) l' (by simpa using hget) ht'
      have harith : i + (j + 1) = (i + 1) + j := by omega
      rwa [harith] at this
    rw [prunePassAux, legacyPassAux, hrec]
    by_cases hi : i = 0
    · simp [hi]
    · by_cases ht : isTurn l
      · have hm := h 0 l (by simp) ht
        simp only [Nat.add_zero] at hm
        by_cases hk : i ∈ ks
        · rw [if_neg hi, if_neg hi, if_pos ht, if_pos ht, if_pos hk, if_pos (hm.mp hk)]
        · rw [if_neg hi, if_neg hi, if_pos ht, if_pos ht, if_neg hk,
            if_neg (fun hg => hk (hm.mpr hg))]
      · simp [hi, ht]

/-- Both legacy entry points apply their keep/drop pass to the fixed-up
lines; this reduces their comparison to the agreement condition on
positions `≥ 1`. -/
theorem passes_agree (lines : List Line) (ks : List Nat) (c : Option Nat)
    (hcond : ∀ pos l₀, 1 ≤ pos → lines[pos]? = some l₀ → isTurn l₀ = true →
      (pos ∈ ks ↔ jsGeOpt pos c = true)) :
    prunePassAux ks 0 (applyCacheTokenHack lines)
      = legacyPassAux c 0 (applyCacheTokenHack lines) := by
  cases lines with
  | nil => rfl
  | cons l0 tl =>
    rw [applyCacheTokenHack_cons, prunePassAux_zero, legacyPassAux_zero]
    apply prunePassAux_eq_legacyPassAux
    intro j l hget ht
    rw [hackMapAux_getElem? tl _ 1 j] at hget
    cases hl : tl[j]? with
    | none => rw [hl] at hget; cases hget
    | some l₀ =>
      rw [hl] at hget
      simp only [Option.map_some', Option.some.injEq] at hget
      subst hget
      have hturn : isTurn l₀ = true := by
        by_cases hc2 : ((1 + j : Nat) : Int) = lastNonZeroCacheLineIndex (l0 :: tl)
        · rw [if_pos hc2, isTurn_zeroCacheLine] at ht; exact ht
        · rw [if_neg hc2] at ht; exact ht
      exact hcond (1 + j) l₀ (by omega) (by simpa [Nat.add_comm 1 j] using hl) hturn

theorem jsGet_eq_none_of_length_le (l : List Nat) (i : Int)
    (h : (l.length : Int) ≤ i) : jsGet l i = none := by
  rw [jsGet, if_pos (by omega)]
  exact List.getElem?_eq_none (by omega)

/-- A user turn line used by the example transcripts. -/
def userLine : Line := .json { type := some "user", content := some "hi" }

/-- An assistant turn line used by the example transcripts. -/
def asstLine : Line := .json { type := some "assistant", content := some "ok" }

/-- The metadata line used by the example transcripts. -/
def metaLine : Line := .json { type := some "metadata" }

/-- A transcript with one user turn and no assistant turn. -/
def exNoAssistant : List Line := [metaLine, userLine]

/-- Counterexample to C9 as stated: with `keepN = -1` on a transcript
with a turn but no assistant turn, the exported legacy function keeps
the turn while the class method drops it. -/
theorem legacy_implementations_diverge :
    (pruneSessionLines exNoAssistant (-1)).kept = 1
    ∧ (SmartPruner.pruneSessionLines exNoAssistant (-1)).kept = 0
    ∧ (pruneSessionLines exNoAssistant (-1)).outLines = [metaLine, userLine]
    ∧ (SmartPruner.pruneSessionLines exNoAssistant (-1)).outLines = [metaLine] := by
  decide

/-- The two legacy entry points agree for every `keepN ≥ 0`. -/
theorem legacy_agree_of_nonneg (lines : List Line) (keepN : Int) (hN : 0 ≤ keepN) :
    pruneSessionLines lines keepN = SmartPruner.pruneSessionLines lines keepN := by
  simp only [pruneSessionLines, SmartPruner.pruneSessionLines, pruneWithIndices]
  have hmax : max 0 keepN = keepN := max_eq_right hN
  rw [hmax]
  by_cases hgt : ((assistantIndices lines).length : Int) > keepN
  · rw [if_pos hgt, if_pos hgt]
    have hpass := passes_agree lines
      ((messageIndices lines).filter (fun idx =>
        jsGeOpt idx (jsGet (assistantIndices lines)
          (((assistantIndices lines).length : Int) - keepN))))
      (jsGet (assistantIndices lines) (((assistantIndices lines).length : Int) - keepN))
      ?_
    · rw [hpass]
    · intro pos l₀ hpos hget ht
      rw [List.mem_filter]
      constructor
      · rintro ⟨-, hp⟩; exact hp
      · intro hp
        exact ⟨(mem_messageIndices lines pos).mpr ⟨l₀, hget, by omega, ht⟩, hp⟩
  · rw [if_neg hgt, if_neg hgt]
    have hpass := passes_agree lines (messageIndices lines) (some 0) ?_
    · rw [hpass]
    · intro pos l₀ hpos hget ht
      refine iff_of_true ((mem_messageIndices lines pos).mpr ⟨l₀, hget, by omega, ht⟩) ?_
      simp [jsGeOpt]

/-- The two legacy entry points agree for negative `keepN` whenever at
least one assistant turn exists: both cutoffs are then `undefined` and
both drop every turn. -/
theorem legacy_agree_of_neg (lines : List Line) (keepN : Int) (hneg : keepN < 0)
    (hA : assistantIndices lines ≠ []) :
    pruneSessionLines lines keepN = SmartPruner.pruneSessionLines lines keepN := by
  simp only [pruneSessionLines, SmartPruner.pruneSessionLines, pruneWithIndices]
  have hlen : 1 ≤ (assistantIndices lines).length := by
    cases hl : assistantIndices lines with
    | nil => exact absurd hl hA
    | cons a rest => simp
  have hmax : max 0 keepN = 0 := max_eq_left (by omega)
  rw [hmax]
  have hgt0 : ((assistantIndices lines).length : Int) > 0 := by exact_mod_cast hlen
  have hgtN : ((assistantIndices lines).length : Int) > keepN := by omega
  rw [if_pos hgt0, if_pos hgtN]
  have hc1 : jsGet (assistantIndices lines)
      (((assistantIndices lines).length : Int) - 0) = none :=
    jsGet_eq_none_of_length_le _ _ (by omega)
  have hc2 : jsGet (assistantIndices lines)
      (((assistantIndices lines).length : Int) - keepN) = none :=
    jsGet_eq_none_of_length_le _ _ (by omega)
  rw [hc1, hc2]
  have hpass := passes_agree lines
    ((messageIndices lines).filter (fun idx => jsGeOpt idx none)) none ?_
  · rw [hpass]
  · intro pos l₀ hpos hget ht
    simp [List.mem_filter, jsGeOpt]

/-- C9 (amended): the exported legacy `pruneSessionLines` and the class
method `SmartPruner.pruneSessionLines` return identical results in all
four shared fields for every keep-count `N ≥ 0`, and also for negative
`N` whenever the transcript has at least one assistant turn; the two
differ only for negative `N` on assistant-free transcripts
(see the counterexample). -/
theorem legacy_implementations_agree (lines : List Line) (keepN : Int)
    (h : 0 ≤ keepN ∨ assistantIndices lines ≠ []) :
    pruneSessionLines lines keepN = SmartPruner.pruneSessionLines lines keepN := by
  rcases le_or_lt 0 keepN with hN | hneg
  · exact legacy_agree_of_nonneg lines keepN hN
  · rcases h with hN | hA
    · omega
    · exact legacy_agree_of_neg lines keepN hneg hA

/-- Witness for C9 (amended): the two entry points agree on the
6-turn alternating transcript with `keepN = 2`. -/
theorem legacy_implementations_agree_witness :
    pruneSessionLines [metaLine, userLine, asstLine, userLine, asstLine, userLine, asstLine] 2
      = SmartPruner.pruneSessionLines
          [metaLine, userLine, asstLine, userLine, asstLine, userLine, asstLine] 2 :=
  legacy_implementations_agree _ 2 (Or.inl (by decide))

theorem keepTurnsFrom_of_le (c : Nat) (tl : List Line) :
    ∀ i : Nat, c ≤ i → keepTurnsFrom c i tl = tl := by
  induction tl with
  | nil => intro i _; rfl
  | cons l rest ih =>
    intro i hi
    rw [keepTurnsFrom, if_neg (by rintro ⟨-, h⟩; omega), ih (i + 1) (by omega)]

/-- With a defined cutoff `c`, the legacy pass keeps exactly the
non-turn lines plus the turns at positions `≥ c`, and counts the turn
positions on each side of the cutoff. -/
theorem legacyPassAux_some (c : Nat) (tl : List Line) :
    ∀ i : Nat, 1 ≤ i →
      legacyPassAux (some c) i tl
        = (keepTurnsFrom c i tl,
           (turnIdxAux i tl).countP (fun x => decide (c ≤ x)),
           (turnIdxAux i tl).countP (fun x => decide (x < c))) := by
  induction tl with
  | nil => intro i _; rfl
  | cons l rest ih =>
    intro i hi
    rw [legacyPassAux, keepTurnsFrom, turnIdxAux]
    simp only [ih (i + 1) (by omega)]
    by_cases ht : isTurn l
    · by_cases hge : c ≤ i
      · rw [if_neg (show ¬ i = 0 by omega), if_pos ht,
          if_pos (show jsGeOpt i (some c) = true by simp [jsGeOpt, hge]),
          if_neg (show ¬ (isTurn l ∧ i < c) by rintro ⟨-, h⟩; omega),
          if_pos (show i ≠ 0 ∧ isTurn l from ⟨by omega, ht⟩)]
        simp [List.countP_cons, hge, Nat.not_lt.mpr hge]
      · rw [if_neg (show ¬ i = 0 by omega), if_pos ht,
          if_neg (show ¬ jsGeOpt i (some c) = true by simpa [jsGeOpt] using hge),
          if_pos (show isTurn l ∧ i < c from ⟨ht, by omega⟩),
          if_pos (show i ≠ 0 ∧ isTurn l from ⟨by omega, ht⟩)]
        simp [List.countP_cons, hge, show i < c by omega]
    · rw [if_neg (show ¬ i = 0 by omega), if_neg ht,
        if_neg (show ¬ (isTurn l ∧ i < c) by rintro ⟨h, -⟩; exact ht h),
        if_neg (show ¬ (i ≠ 0 ∧ isTurn l) by rintro ⟨-, h⟩; exact ht h)]

/-- The full legacy pass over the fixed-up lines, in terms of the
message positions of the original lines. -/
theorem legacyPass_characterization (lines : List Line) (c : Nat) :
    legacyPassAux (some c) 0 (applyCacheTokenHack lines)
      = (keepTurnsFrom c 1 ((applyCacheTokenHack lines).drop 1),
         (messageIndices lines).countP (fun x => decide (c ≤ x)),
         (messageIndices lines).countP (fun x => decide (x < c))) := by
  cases lines with
  | nil => rfl
  | cons l0 tl =>
    rw [applyCacheTokenHack_cons, legacyPassAux_zero]
    simp only [List.drop_succ_cons, List.drop_zero]
    rw [legacyPassAux_some c _ 1 (by omega),
      turnIdxAux_hackMapAux tl _ 1 1,
      messageIndices, turnIdxAux_zero_cons]

/-- C4 (amended): for every keep-count `N ≥ 1` the legacy entry point
reports `assistantCount` as the number of assistant turns; when at most
`N` assistant turns exist every turn is kept; when more than `N` exist
the cutoff is the assistant position at 0-based index
`count − N` — the `(count − N + 1)`-th assistant turn counted 1-based
from the start, i.e. the `N`-th from the last — and every turn at a
position `≥` that cutoff is kept while every earlier turn is dropped,
non-turn lines passing through. -/
theorem legacy_cutoff (lines : List Line) (keepN : Int) (hN : 1 ≤ keepN) :
    (pruneSessionLines lines keepN).assistantCount = (assistantIndices lines).length
    ∧ (((assistantIndices lines).length : Int) ≤ keepN →
        (pruneSessionLines lines keepN).kept = (messageIndices lines).length
        ∧ (pruneSessionLines lines keepN).dropped = 0
        ∧ (pruneSessionLines lines keepN).outLines
            = lines.take 1 ++ (applyCacheTokenHack lines).drop 1)
    ∧ (((assistantIndices lines).length : Int) > keepN →
        ∃ c, jsGet (assistantIndices lines)
              (((assistantIndices lines).length : Int) - keepN) = some c
          ∧ (pruneSessionLines lines keepN).kept
              = (messageIndices lines).countP (fun x => decide (c ≤ x))
          ∧ (pruneSessionLines lines keepN).dropped
              = (messageIndices lines).countP (fun x => decide (x < c))
          ∧ (pruneSessionLines lines keepN).outLines
              = lines.take 1 ++ keepTurnsFrom c 1 ((applyCacheTokenHack lines).drop 1)) := by
  have hmax : max 0 keepN = keepN := max_eq_right (by omega)
  refine ⟨rfl, ?_, ?_⟩
  · intro hle
    have h1 : (fun x : Nat => decide (0 ≤ x)) = fun _ => true := by funext x; simp
    have h2 : (fun x : Nat => decide (x < 0)) = fun _ => false := by funext x; simp
    refine ⟨?_, ?_, ?_⟩ <;>
      simp only [pruneSessionLines, hmax, if_neg (show ¬ ((assistantIndices lines).length : Int) > keepN by omega),
        legacyPass_characterization lines 0, h1, h2, List.countP_true, List.countP_false,
        Function.const_apply, keepTurnsFrom_of_le 0 _ 1 (by omega)]
  · intro hgt
    have h0 : (0 : Int) ≤ ((assistantIndices lines).length : Int) - keepN := by omega
    have hlt : (((assistantIndices lines).length : Int) - keepN).toNat
        < (assistantIndices lines).length := by omega
    have hsome : ∃ c, jsGet (assistantIndices lines)
        (((assistantIndices lines).length : Int) - keepN) = some c := by
      rw [jsGet, if_pos h0]
      exact ⟨_, List.getElem?_eq_getElem hlt⟩
    obtain ⟨c, hc⟩ := hsome
    refine ⟨c, hc, ?_, ?_, ?_⟩ <;>
      simp only [pruneSessionLines, hmax,
        if_pos (show ((assistantIndices lines).length : Int) > keepN from hgt), hc,
        legacyPass_characterization lines c]

/-- The 6-turn alternating transcript of spec property P7. -/
def exAlternating : List Line :=
  [metaLine, userLine, asstLine, userLine, asstLine, userLine, asstLine]

/-- Counterexample to C4 as stated: on the P7 transcript with `N = 2`,
3 assistant turns exist at positions 2, 4, 6; the claim's cutoff — the
`(3 − 2)`-th assistant turn counted 1-based, i.e. position 2 — would
keep the 5 turns at positions `≥ 2`, but the code keeps only 3. -/
theorem legacy_cutoff_counterexample :
    (assistantIndices exAlternating).length = 3
    ∧ (assistantIndices exAlternating)[0]? = some 2
    ∧ (pruneSessionLines exAlternating 2).kept = 3
    ∧ (messageIndices exAlternating).countP (fun x => decide (2 ≤ x)) = 5 := by
  decide

/-- Witness for C4 (amended) at the P7 transcript with `N = 2`. -/
theorem legacy_cutoff_witness :
    ∃ c, jsGet (assistantIndices exAlternating)
          (((assistantIndices exAlternating).length : Int) - 2) = some c
      ∧ (pruneSessionLines exAlternating 2).kept
          = (messageIndices exAlternating).countP (fun x => decide (c ≤ x))
      ∧ (pruneSessionLines exAlternating 2).dropped
          = (messageIndices exAlternating).countP (fun x => decide (x < c))
      ∧ (pruneSessionLines exAlternating 2).outLines
          = exAlternating.take 1 ++ keepTurnsFrom c 1 ((applyCacheTokenHack exAlternating).drop 1) :=
  (legacy_cutoff exAlternating 2 (by decide)).2.2 (by decide)

/-! ### Strategy Builder and the non-interactive path (claims C5, C10) -/

/-- Embeds the non-interactive branch of `main`:
`recentStart = Math.floor(totalMessages * 0.4)` and the kept index set
is `messageIndices.slice(recentStart)`.  The floor of `0.4·n` is taken
in exact arithmetic as `2n / 5`. -/
def nonInteractiveIndices (lines : List Line) : List Nat :=
  let mi := messageIndices lines
  let totalMessages := mi.length
  let recentStart := 2 * totalMessages / 5
  mi.drop recentStart

/-- Embeds the recent strategy of `InteractiveUI.buildStrategies`:
`recentStart = Math.floor(totalMessages * 0.6)` (exactly `3n / 5`),
keep the tail from there — the last 40% of turns. -/
def recentIndices (lines : List Line) : List Nat :=
  let mi := messageIndices lines
  let totalMessages := mi.length
  let recentStart := 3 * totalMessages / 5
  mi.drop recentStart

/-- JavaScript `arr.slice(-k)` for a natural `k`: since `-0 === 0`,
`k = 0` yields the whole array rather than an empty tail; otherwise the
last `k` elements (all of them when `k > length`). -/
def sliceNeg (l : List Nat) (k : Nat) : List Nat :=
  if k = 0 then l else l.drop (l.length - k)

/-- Embeds the bookends strategy of `InteractiveUI.buildStrategies`:
`slice(0, min(10, ⌊0.1·n⌋))` plus `slice(-min(30, ⌊0.3·n⌋))`, the
floors taken exactly as `n / 10` and `3n / 10`. -/
def bookendIndices (lines : List Line) : List Nat :=
  let mi := messageIndices lines
  let totalMessages := mi.length
  let firstCount := min 10 (totalMessages / 10)
  let lastCount := min 30 (3 * totalMessages / 10)
  mi.take firstCount ++ sliceNeg mi lastCount

/-- JavaScript `Math.round(num/den) = ⌊num/den + 1/2⌋` for a
non-negative quotient, in exact integer arithmetic (for `den = 0` this
yields 0 where JS yields `NaN`). -/
def jsRound (num den : Int) : Int :=
  (2 * num + den) / (2 * den)

/-- The bookends candidate's advertised freed percentage,
`Math.round(((total − |selection|) / total) * 100)`. -/
def bookendFreed (lines : List Line) : Int :=
  let mi := messageIndices lines
  let totalMessages := mi.length
  jsRound (100 * ((totalMessages : Int) - ((bookendIndices lines).length : Int)))
    (totalMessages : Int)

/-- A 5-turn transcript. -/
def exFiveTurns : List Line :=
  [metaLine, userLine, asstLine, userLine, asstLine, userLine]

/-- Counterexample to C5 as stated: on a 5-turn session the
non-interactive path keeps the turns from rank `⌊0.4·5⌋ = 2` (three
turns), while the Recent-only strategy keeps from rank `⌊0.6·5⌋ = 3`
(two turns) — the two selections differ. -/
theorem noninteractive_recent_counterexample :
    nonInteractiveIndices exFiveTurns = [3, 4, 5]
    ∧ recentIndices exFiveTurns = [4, 5]
    ∧ nonInteractiveIndices exFiveTurns ≠ recentIndices exFiveTurns := by
  decide

/-- C5 (amended): the non-interactive selection drops only the first
`⌊0.4·n⌋` turns (keeping the last ≈60%), whereas the Recent-only
strategy drops the first `⌊0.6·n⌋` (keeping the last 40%); the
Recent-only selection is always a suffix of the non-interactive one,
but the two are not equal in general. -/
theorem noninteractive_vs_recent (lines : List Line) :
    (nonInteractiveIndices lines).length
        = (messageIndices lines).length - 2 * (messageIndices lines).length / 5
    ∧ (recentIndices lines).length
        = (messageIndices lines).length - 3 * (messageIndices lines).length / 5
    ∧ recentIndices lines <:+ nonInteractiveIndices lines := by
  refine ⟨?_, ?_, ?_⟩
  · simp only [nonInteractiveIndices]
    exact List.length_drop _ _
  · simp only [recentIndices]
    exact List.length_drop _ _
  · simp only [recentIndices, nonInteractiveIndices]
    have hle : 2 * (messageIndices lines).length / 5 ≤ 3 * (messageIndices lines).length / 5 :=
      Nat.div_le_div_right (by omega)
    obtain ⟨k, hk⟩ : ∃ k, 3 * (messageIndices lines).length / 5
        = 2 * (messageIndices lines).length / 5 + k :=
      ⟨_, (Nat.add_sub_cancel' hle).symm⟩
    rw [hk, ← List.drop_drop]
    exact List.drop_suffix _ _

/-- A 3-turn transcript. -/
def exThreeTurns : List Line := [metaLine, userLine, asstLine, userLine]

/-- C10: for a session with fewer than 4 turns, `⌊0.3·n⌋ = 0`, so the
bookends strategy computes `slice(-0)` — the whole turn-position list —
and thus selects every turn, freeing 0% (for nonempty sessions; with 0
turns JS would display `NaN`). -/
theorem bookends_small_session (lines : List Line)
    (h : (messageIndices lines).length < 4) :
    bookendIndices lines = messageIndices lines
    ∧ (0 < (messageIndices lines).length → bookendFreed lines = 0) := by
  have hfloor3 : 3 * (messageIndices lines).length / 10 = 0 := Nat.div_eq_of_lt (by omega)
  have hfloor1 : (messageIndices lines).length / 10 = 0 := Nat.div_eq_of_lt (by omega)
  have hsel : bookendIndices lines = messageIndices lines := by
    simp only [bookendIndices, hfloor3, hfloor1]
    simp [sliceNeg]
  refine ⟨hsel, fun hpos => ?_⟩
  have hn : (0 : Int) < ((messageIndices lines).length : Int) := by exact_mod_cast hpos
  simp only [bookendFreed, hsel, jsRound, sub_self, mul_zero, zero_add]
  exact Int.ediv_eq_zero_of_lt (by positivity) (by omega)

/-- Witness for C10 at a 3-turn session. -/
theorem bookends_small_session_witness :
    bookendIndices exThreeTurns = messageIndices exThreeTurns
    ∧ bookendFreed exThreeTurns = 0 :=
  ⟨(bookends_small_session exThreeTurns (by decide)).1,
   (bookends_small_session exThreeTurns (by decide)).2 (by decide)⟩

/-! ### Importance scorer (claim C6) -/

/-- JavaScript `Array.prototype.indexOf` with the running position as
an accumulator. -/
def jsIndexOfAux (x : Nat) (i : Nat) : List Nat → Int
  | [] => -1
  | y :: rest => if y == x then (i : Int) else jsIndexOfAux x (i + 1) rest

/-- JavaScript `Array.prototype.indexOf`: the first position of `x`,
or `-1` when absent. -/
def jsIndexOf (l : List Nat) (x : Nat) : Int :=
  jsIndexOfAux x 0 l

/-- Embeds `SessionAnalyzer.scoreMessage`: additive signal weights, length
bonuses, and the recency bonus `(rank / totalTurns) * 3`, as an exact
rational. -/
def scoreMessage (mi : List Nat) (msg : MessageInfo) : ℚ :=
  let signals : ℚ :=
    (if msg.hasFileEdit then 10 else 0) + (if msg.hasCode then 5 else 0)
      + (if msg.hasError then 7 else 0) + (if msg.hasTool then 3 else 0)
  let withLength : ℚ :=
    signals + (if msg.length > 1000 then 2 else 0) + (if msg.length > 2000 then 3 else 0)
  let position : ℚ := (jsIndexOf mi msg.index : ℚ)
  withLength + position / (mi.length : ℚ) * 3

/-- Embeds `SessionAnalyzer.findKeyMessages`: score every turn, stable-sort by
descending score (the stable JS sort with comparator
`(a, b) => b.score − a.score` is modelled by insertion sort), keep the
top `max(10, ⌊0.2·total⌋)` (the floor taken exactly as `total / 5`),
and re-sort the kept positions ascending. -/
def findKeyMessages (lines : List Line) : List Nat :=
  let md := messageDetails lines
  let mi := messageIndices lines
  let scored := md.map (fun m => (m.index, scoreMessage mi m))
  let sorted := scored.insertionSort (fun a b => b.2 ≤ a.2)
  let keepCount := max 10 (md.length / 5)
  ((sorted.take keepCount).map Prod.fst).insertionSort (· ≤ ·)

/-- The analyzer's per-message records carry exactly the message
positions. -/
theorem messageDetailsAux_map_index (ls : List Line) :
    ∀ i : Nat, (messageDetailsAux i ls).map (fun m => m.index) = turnIdxAux i ls := by
  induction ls with
  | nil => intro i; rfl
  | cons l rest ih =>
    intro i
    rw [messageDetailsAux.eq_def, turnIdxAux]
    by_cases hi : i = 0
    · simp [hi, ih]
    · cases l with
      | raw s => simp [hi, ih, isTurn]
      | json o =>
        cases ho : o.type with
        | none => simp [hi, ih, isTurn, ho]
        | some t =>
          by_cases hm : t ∈ MSG_TYPES
          · simp [hi, ih, isTurn, ho, hm, mkInfo]
          · simp [hi, ih, isTurn, ho, hm]

theorem turnIdxAux_ge (ls : List Line) :
    ∀ i x, x ∈ turnIdxAux i ls → i ≤ x := by
  induction ls with
  | nil => intro i x h; simp [turnIdxAux] at h
  | cons l rest ih =>
    intro i x h
    rw [turnIdxAux] at h
    by_cases hg : i ≠ 0 ∧ isTurn l
    · rw [if_pos hg, List.mem_cons] at h
      rcases h with rfl | h
      · exact le_refl x
      · exact le_trans (by omega) (ih (i + 1) x h)
    · rw [if_neg hg] at h
      exact le_trans (by omega) (ih (i + 1) x h)

/-- The message positions are strictly increasing. -/
theorem turnIdxAux_pairwise (ls : List Line) :
    ∀ i, (turnIdxAux i ls).Pairwise (· < ·) := by
  induction ls with
  | nil => intro i; exact List.Pairwise.nil
  | cons l rest ih =>
    intro i
    rw [turnIdxAux]
    by_cases hg : i ≠ 0 ∧ isTurn l
    · rw [if_pos hg]
      exact List.pairwise_cons.mpr
        ⟨fun y hy => lt_of_lt_of_le (by omega) (turnIdxAux_ge rest (i + 1) y hy), ih (i + 1)⟩
    · rw [if_neg hg]
      exact ih (i + 1)

/-- C6: `findKeyMessages` returns exactly
`min(totalTurns, max(10, ⌊0.2·totalTurns⌋))` turn positions, in
strictly ascending global-position order (hence duplicate-free), and
never fewer than `min(10, totalTurns)`. -/
theorem findKeyMessages_spec (lines : List Line) :
    (findKeyMessages lines).length
        = min (messageDetails lines).length (max 10 ((messageDetails lines).length / 5))
    ∧ (findKeyMessages lines).Pairwise (· < ·)
    ∧ min 10 (messageDetails lines).length ≤ (findKeyMessages lines).length := by
  have hpairmi : (messageIndices lines).Pairwise (· < ·) := turnIdxAux_pairwise lines 0
  have hnodupmi : (messageIndices lines).Nodup := hpairmi.imp (fun h => Nat.ne_of_lt h)
  simp only [findKeyMessages]
  set md := messageDetails lines with hmd
  set mi := messageIndices lines with hmi
  set scored := md.map (fun m => (m.index, scoreMessage mi m)) with hscored
  set sorted := scored.insertionSort (fun a b => b.2 ≤ a.2) with hsorted
  set kc := max 10 (md.length / 5) with hkc
  set picked := (sorted.take kc).map Prod.fst with hpicked
  set result := picked.insertionSort (· ≤ ·) with hresult
  have hps : List.Perm sorted scored := List.perm_insertionSort _ scored
  have hlen_sorted : sorted.length = md.length := by
    rw [hps.length_eq, hscored, List.length_map]
  have hlen_result : result.length = min kc md.length := by
    rw [hresult, (List.perm_insertionSort _ picked).length_eq, hpicked, List.length_map,
      List.length_take, hlen_sorted]
  have hnodup_picked : picked.Nodup := by
    have hmapfst : scored.map Prod.fst = mi := by
      rw [hscored, List.map_map]
      exact messageDetailsAux_map_index lines 0
    have h1 : (sorted.map Prod.fst).Nodup := by
      rw [(hps.map Prod.fst).nodup_iff, hmapfst]
      exact hnodupmi
    rw [hpicked, List.map_take]
    exact h1.sublist (List.take_sublist _ _)
  have hsorted_le : List.Sorted (· ≤ ·) result := List.sorted_insertionSort _ picked
  have hnodup_result : result.Nodup := by
    rw [hresult, (List.perm_insertionSort _ picked).nodup_iff]
    exact hnodup_picked
  refine ⟨?_, ?_, ?_⟩
  · rw [hlen_result, Nat.min_comm]
  · exact (hsorted_le.and hnodup_result).imp (fun h => lt_of_le_of_ne h.1 h.2)
  · have h10 : 10 ≤ kc := le_max_left _ _
    omega

/-! ### Phase segmentation (claims C2 and C7) -/

/-- The aggregate signal counts of a phase or window. -/
structure Characteristics where
  codeBlocks : Nat
  errors : Nat
  fileEdits : Nat
  toolUses : Nat
  deriving Repr, DecidableEq, Inhabited

/-- Embeds `WorkPhase` from `analyzer.ts` (`end` is a Lean keyword, so the
field is called `stop` here; values are JS numbers, hence `Int`). -/
structure WorkPhase where
  start : Int
  stop : Int
  description : String
  messageCount : Nat
  characteristics : Characteristics
  deriving Repr, DecidableEq, Inhabited

/-- The per-window signal counts (`window.filter(..).length`). -/
def characteristicsOf (w : List MessageInfo) : Characteristics :=
  { codeBlocks := (w.filter (fun m => m.hasCode)).length
    errors := (w.filter (fun m => m.hasError)).length
    fileEdits := (w.filter (fun m => m.hasFileEdit)).length
    toolUses := (w.filter (fun m => m.hasTool)).length }

/-- JavaScript `x < arr[5]` where the read may be `undefined` (for
sessions with fewer than 6 turns): comparisons with `undefined` are
false. -/
def jsLtOpt (x : Nat) : Option Nat → Bool
  | some v => decide (x < v)
  | none => false

/-- Embeds `SessionAnalyzer.classifyPhase`; the fractional thresholds are
compared in exact arithmetic (`errors > 0.3·total` iff
`10·errors > 3·total`, and so on).  `messages[0]` is modelled by
`headI` (windows are never empty). -/
def classifyPhase (mi : List Nat) (ch : Characteristics) (messages : List MessageInfo) :
    String :=
  let total := messages.length
  if 10 * ch.errors > 3 * total then "Debugging and error resolution"
  else if 10 * ch.fileEdits > 3 * total ∨ 10 * ch.codeBlocks > 4 * total then
    "Implementation and coding"
  else if 10 * ch.toolUses > 4 * total ∧ ch.fileEdits = 0 then
    "Exploration and file reading"
  else if messages.all (fun m => m.type == "user" || m.type == "assistant") ∧ ch.toolUses = 0 then
    if jsLtOpt (messages.headI).index mi[5]? then "Initial setup and requirements"
    else "Discussion and planning"
  else "General development"

/-- Pointwise sum of signal counts (`characteristics.x += ...`). -/
def addChars (a b : Characteristics) : Characteristics :=
  { codeBlocks := a.codeBlocks + b.codeBlocks
    errors := a.errors + b.errors
    fileEdits := a.fileEdits + b.fileEdits
    toolUses := a.toolUses + b.toolUses }

/-- The phase opened for window `w`: note `start` and `stop` are
`messageIndices.indexOf(...)` — ranks in the turn-only sequence, not
global line positions. -/
def newPhase (mi : List Nat) (w : List MessageInfo) (pt : String) (ch : Characteristics) :
    WorkPhase :=
  { start := jsIndexOf mi (w.headI).index
    stop := jsIndexOf mi (w.getLastI).index
    description := pt
    messageCount := w.length
    characteristics := ch }

/-- Extending the current phase with window `w`. -/
def extendPhase (c : WorkPhase) (mi : List Nat) (w : List MessageInfo) (ch : Characteristics) :
    WorkPhase :=
  { c with
    stop := jsIndexOf mi (w.getLastI).index
    messageCount := c.messageCount + w.length
    characteristics := addChars c.characteristics ch }

/-- Structural worker for `windows10` (fuel bounds the length so the
kernel can evaluate it). -/
def windows10Fuel : Nat → List MessageInfo → List (List MessageInfo)
  | _, [] => []
  | 0, _ :: _ => []
  | fuel + 1, x :: rest => ((x :: rest).take 10) :: windows10Fuel fuel ((x :: rest).drop 10)

/-- The fixed windows of 10 turns
(`slice(i, min(i + 10, length))` for `i = 0, 10, 20, …`). -/
def windows10 (l : List MessageInfo) : List (List MessageInfo) :=
  windows10Fuel l.length l

/-- The window loop of `detectWorkPhases`: label each window, push the
current phase on a label change, extend it otherwise, and push the
final phase. -/
def buildPhases (mi : List Nat) : List (List MessageInfo) → Option WorkPhase → List WorkPhase
  | [], none => []
  | [], some c => [c]
  | w :: ws, cur =>
    let ch := characteristicsOf w
    let pt := classifyPhase mi ch w
    match cur with
    | none => buildPhases mi ws (some (newPhase mi w pt ch))
    | some c =>
      if pt ≠ c.description then c :: buildPhases mi ws (some (newPhase mi w pt ch))
      else buildPhases mi ws (some (extendPhase c mi w ch))

/-- Two phases folded by `mergePhases`. -/
def mergedPhase (c p : WorkPhase) : WorkPhase :=
  { c with
    stop := p.stop
    messageCount := c.messageCount + p.messageCount
    characteristics := addChars c.characteristics p.characteristics }

/-- The fold of `mergePhases` over the remaining phases. -/
def mergeLoop (current : WorkPhase) : List WorkPhase → List WorkPhase
  | [] => [current]
  | p :: rest =>
    if p.description = current.description ∧ p.start - current.stop ≤ 3 then
      mergeLoop (mergedPhase current p) rest
    else current :: mergeLoop p rest

/-- Embeds `SessionAnalyzer.mergePhases`. -/
def mergePhases (phases : List WorkPhase) : List WorkPhase :=
  if phases.length ≤ 1 then phases
  else
    match phases with
    | [] => []
    | p :: rest => mergeLoop p rest

/-- Embeds `SessionAnalyzer.detectWorkPhases`. -/
def detectWorkPhases (lines : List Line) : List WorkPhase :=
  let md := messageDetails lines
  if md = [] then []
  else mergePhases (buildPhases (messageIndices lines) (windows10 md) none)

/-- Covering predicate `coversFromB a n ps`: the phases `ps` carry consecutive ranges
`[a, b₁], [b₁+1, b₂], …` ending exactly at `n - 1` — ascending,
non-overlapping, contiguous, spanning `[a, n)` exactly once. -/
def coversFromB : Int → Int → List WorkPhase → Bool
  | a, n, [] => decide (a = n)
  | a, n, p :: ps =>
    decide (p.start = a) && decide (a ≤ p.stop) && decide (p.stop < n)
      && coversFromB (p.stop + 1) n ps

theorem windows10Fuel_irrel : ∀ (f1 : Nat) (l : List MessageInfo) (f2 : Nat),
    l.length ≤ f1 → l.length ≤ f2 → windows10Fuel f1 l = windows10Fuel f2 l := by
  intro f1
  induction f1 with
  | zero =>
    intro l f2 h1 h2
    match l with
    | [] => cases f2 <;> rfl
  | succ f ih =>
    intro l f2 h1 h2
    match l, f2 with
    | [], f2 => cases f2 <;> rfl
    | x :: rest, 0 => simp at h2
    | x :: rest, g + 1 =>
      rw [windows10Fuel, windows10Fuel]
      congr 1
      apply ih
      · simp only [List.length_drop, List.length_cons]
        simp only [List.length_cons] at h1
        omega
      · simp only [List.length_drop, List.length_cons]
        simp only [List.length_cons] at h2
        omega

theorem windows10_nil : windows10 [] = [] := rfl

theorem windows10_cons (l : List MessageInfo) (h : l ≠ []) :
    windows10 l = l.take 10 :: windows10 (l.drop 10) := by
  match l with
  | x :: rest =>
    show windows10Fuel (x :: rest).length (x :: rest) = _
    rw [List.length_cons, windows10Fuel]
    congr 1
    apply windows10Fuel_irrel
    · simp only [List.length_drop, List.length_cons]
      omega
    · exact le_refl _

theorem getLast?_eq_some_getLastI (l : List MessageInfo) (h : l ≠ []) :
    l.getLast? = some l.getLastI := by
  rw [List.getLastI_eq_getLast?]
  cases hl : l.getLast? with
  | some v => rfl
  | none =>
    exfalso
    have h2 : l.getLast?.isSome := List.getLast?_isSome.mpr h
    rw [hl] at h2
    simp at h2

/-- On a strictly increasing list, `indexOf` recovers the rank. -/
theorem jsIndexOfAux_of_pairwise (l : List Nat) :
    ∀ (i k x : Nat), l.Pairwise (· < ·) → l[k]? = some x →
      jsIndexOfAux x i l = ((i + k : Nat) : Int) := by
  induction l with
  | nil => intro i k x _ h; simp at h
  | cons a rest ih =>
    intro i k x hp h
    match k with
    | 0 =>
      simp only [List.getElem?_cons_zero, Option.some.injEq] at h
      subst h
      rw [jsIndexOfAux]
      simp
    | k' + 1 =>
      simp only [List.getElem?_cons_succ] at h
      have hax : a < x :=
        (List.pairwise_cons.mp hp).1 x (List.getElem?_mem h)
      rw [jsIndexOfAux, if_neg (by simp; omega),
        ih (i + 1) k' x (List.pairwise_cons.mp hp).2 h]
      push_cast
      ring

/-- The rank, in the turn-only sequence, of the `k`-th analyzer record's
position is `k`. -/
theorem jsIndexOf_rank (lines : List Line) (k : Nat) (m : MessageInfo)
    (h : (messageDetails lines)[k]? = some m) :
    jsIndexOf (messageIndices lines) m.index = (k : Int) := by
  have hmi : (messageIndices lines)[k]? = some m.index := by
    simp only [messageIndices, ← messageDetailsAux_map_index lines 0]
    rw [List.getElem?_map]
    simp only [messageDetails] at h
    rw [h]
    rfl
  have h2 := jsIndexOfAux_of_pairwise (messageIndices lines) 0 k m.index
    (turnIdxAux_pairwise lines 0) hmi
  simpa [jsIndexOf] using h2

theorem buildPhases_nil_some (mi : List Nat) (c : WorkPhase) :
    buildPhases mi [] (some c) = [c] := rfl

theorem buildPhases_cons_none (mi : List Nat) (w : List MessageInfo)
    (ws : List (List MessageInfo)) :
    buildPhases mi (w :: ws) none
      = buildPhases mi ws
          (some (newPhase mi w (classifyPhase mi (characteristicsOf w) w)
            (characteristicsOf w))) := rfl

theorem buildPhases_cons_some (mi : List Nat) (w : List MessageInfo)
    (ws : List (List MessageInfo)) (c : WorkPhase) :
    buildPhases mi (w :: ws) (some c)
      = if classifyPhase mi (characteristicsOf w) w ≠ c.description then
          c :: buildPhases mi ws
            (some (newPhase mi w (classifyPhase mi (characteristicsOf w) w)
              (characteristicsOf w)))
        else buildPhases mi ws (some (extendPhase c mi w (characteristicsOf w))) := rfl

/-- The window loop produces consecutive rank ranges: starting from a
current phase ending at rank `a - 1` (or from no phase at offset `a`),
the emitted phases cover the ranks `[start, turnCount)` exactly. -/
theorem buildPhases_coversFromB (lines : List Line) :
    ∀ (fuel a : Nat) (cur : Option WorkPhase),
      (messageDetails lines).length - a = fuel →
      a ≤ (messageDetails lines).length →
      (cur = none → (messageDetails lines).drop a ≠ []) →
      (∀ c, cur = some c → c.start ≤ c.stop ∧ c.stop + 1 = (a : Int)) →
      coversFromB (match cur with | some c => c.start | none => (a : Int))
        (((messageDetails lines).length : Nat) : Int)
        (buildPhases (messageIndices lines)
          (windows10 ((messageDetails lines).drop a)) cur) = true := by
  intro fuel
  induction fuel using Nat.strong_induction_on with
  | _ fuel ih =>
    intro a cur hfuel ha hnonecond hsomecond
    by_cases hempty : (messageDetails lines).drop a = []
    · match cur with
      | none => exact absurd hempty (hnonecond rfl)
      | some c =>
        obtain ⟨hc1, hc2⟩ := hsomecond c rfl
        have han : a = (messageDetails lines).length := by
          have hle := List.drop_eq_nil_iff.mp hempty
          omega
        rw [hempty, windows10_nil]
        show coversFromB c.start (((messageDetails lines).length : Nat) : Int)
          (buildPhases (messageIndices lines) [] (some c)) = true
        rw [buildPhases_nil_some, coversFromB, coversFromB]
        simp only [Bool.and_eq_true, decide_eq_true_eq]
        refine ⟨⟨⟨trivial, hc1⟩, by omega⟩, by omega⟩
    · obtain ⟨m, s', hs⟩ : ∃ m s', (messageDetails lines).drop a = m :: s' := by
        cases hdr : (messageDetails lines).drop a with
        | nil => exact absurd hdr hempty
        | cons m s' => exact ⟨m, s', rfl⟩
      have hw_cons : ((messageDetails lines).drop a).take 10 = m :: s'.take 9 := by
        rw [hs]
        rfl
      have hwmin : (((messageDetails lines).drop a).take 10).length
          = min 10 ((messageDetails lines).drop a).length := List.length_take 10 _
      have hslen : ((messageDetails lines).drop a).length
          = (messageDetails lines).length - a := List.length_drop a _
      have hwlen_ge : 1 ≤ (((messageDetails lines).drop a).take 10).length := by
        rw [hw_cons]
        simp
      have hwlen_le : (((messageDetails lines).drop a).take 10).length ≤ 10 := by omega
      have halt : a < (messageDetails lines).length := by
        by_contra hge
        exact hempty (List.drop_eq_nil_iff.mpr (by omega))
      have hawl : a + (((messageDetails lines).drop a).take 10).length
          ≤ (messageDetails lines).length := by omega
      have hheadq : (messageDetails lines)[a]? = some m := by
        have h0 := List.getElem?_drop (messageDetails lines) a 0
        rw [hs] at h0
        simpa using h0.symm
      have hheadI : (((messageDetails lines).drop a).take 10).headI = m := by
        rw [hw_cons]
        rfl
      have hlastq : (messageDetails lines)[a + ((((messageDetails lines).drop a).take 10).length - 1)]?
          = some (((messageDetails lines).drop a).take 10).getLastI := by
        have h4 : (((messageDetails lines).drop a).take 10).getLast?
            = some (((messageDetails lines).drop a).take 10).getLastI :=
          getLast?_eq_some_getLastI _ (by rw [hw_cons]; simp)
        have h5 := List.getLast?_eq_getElem? (((messageDetails lines).drop a).take 10)
        have h6 : ((((messageDetails lines).drop a).take 10))[(((messageDetails lines).drop a).take 10).length - 1]?
            = ((messageDetails lines).drop a)[(((messageDetails lines).drop a).take 10).length - 1]? :=
          List.getElem?_take_of_lt (by omega)
        have h7 := List.getElem?_drop (messageDetails lines) a
          ((((messageDetails lines).drop a).take 10).length - 1)
        rw [← h7, ← h6, ← h5, h4]
      have hrank_head : jsIndexOf (messageIndices lines) m.index = (a : Int) :=
        jsIndexOf_rank lines a m hheadq
      have hrank_last : jsIndexOf (messageIndices lines)
            ((((messageDetails lines).drop a).take 10).getLastI).index
          = ((a + ((((messageDetails lines).drop a).take 10).length - 1) : Nat) : Int) :=
        jsIndexOf_rank lines _ _ hlastq
      have hdropstep : (messageDetails lines).drop
            (a + (((messageDetails lines).drop a).take 10).length)
          = ((messageDetails lines).drop a).drop 10 := by
        have h1 : (messageDetails lines).drop
              (a + (((messageDetails lines).drop a).take 10).length)
            = ((messageDetails lines).drop a).drop
                ((((messageDetails lines).drop a).take 10).length) :=
          (List.drop_drop _ a _).symm
        rw [h1]
        rcases le_or_lt ((messageDetails lines).drop a).length 10 with hle10 | hlt10
        · rw [List.drop_eq_nil_iff.mpr (by omega), List.drop_eq_nil_iff.mpr (by omega)]
        · have h10 : (((messageDetails lines).drop a).take 10).length = 10 := by omega
          rw [h10]
      rw [windows10_cons _ hempty]
      have hnp_start : ∀ pt ch, (newPhase (messageIndices lines)
            (((messageDetails lines).drop a).take 10) pt ch).start = (a : Int) := by
        intro pt ch
        simp [newPhase, hheadI, hrank_head]
      have hnp_stop : ∀ pt ch, (newPhase (messageIndices lines)
            (((messageDetails lines).drop a).take 10) pt ch).stop
          = ((a + ((((messageDetails lines).drop a).take 10).length - 1) : Nat) : Int) := by
        intro pt ch
        simp [newPhase, hrank_last]
      have hrec_new : ∀ pt ch,
          coversFromB ((a : Nat) : Int) (((messageDetails lines).length : Nat) : Int)
            (buildPhases (messageIndices lines)
              (windows10 (((messageDetails lines).drop a).drop 10))
              (some (newPhase (messageIndices lines)
                (((messageDetails lines).drop a).take 10) pt ch))) = true := by
        intro pt ch
        have happ := ih ((messageDetails lines).length
            - (a + (((messageDetails lines).drop a).take 10).length)) (by omega)
          (a + (((messageDetails lines).drop a).take 10).length)
          (some (newPhase (messageIndices lines)
            (((messageDetails lines).drop a).take 10) pt ch))
          rfl (by omega) (by intro hcon; cases hcon)
          (by
            intro c' hc'
            rw [Option.some.injEq] at hc'
            subst hc'
            rw [hnp_start, hnp_stop]
            constructor
            · omega
            · push_cast
              omega)
        have happ2 : coversFromB ((newPhase (messageIndices lines)
              (((messageDetails lines).drop a).take 10) pt ch).start)
            (((messageDetails lines).length : Nat) : Int)
            (buildPhases (messageIndices lines)
              (windows10 ((messageDetails lines).drop
                (a + (((messageDetails lines).drop a).take 10).length)))
              (some (newPhase (messageIndices lines)
                (((messageDetails lines).drop a).take 10) pt ch))) = true := happ
        rw [hdropstep, hnp_start] at happ2
        exact happ2
      match cur with
      | none =>
        show coversFromB ((a : Nat) : Int) (((messageDetails lines).length : Nat) : Int) _ = true
        rw [buildPhases_cons_none]
        exact hrec_new _ _
      | some c =>
        obtain ⟨hc1, hc2⟩ := hsomecond c rfl
        show coversFromB c.start (((messageDetails lines).length : Nat) : Int) _ = true
        rw [buildPhases_cons_some]
        by_cases hne : classifyPhase (messageIndices lines)
            (characteristicsOf (((messageDetails lines).drop a).take 10))
            (((messageDetails lines).drop a).take 10) ≠ c.description
        · rw [if_pos hne, coversFromB]
          simp only [Bool.and_eq_true, decide_eq_true_eq]
          refine ⟨⟨⟨trivial, hc1⟩, by omega⟩, ?_⟩
          rw [hc2]
          exact hrec_new _ _
        · rw [if_neg hne]
          have hep_stop : (extendPhase c (messageIndices lines)
                (((messageDetails lines).drop a).take 10)
                (characteristicsOf (((messageDetails lines).drop a).take 10))).stop
              = ((a + ((((messageDetails lines).drop a).take 10).length - 1) : Nat) : Int) := by
            simp [extendPhase, hrank_last]
          have happ := ih ((messageDetails lines).length
              - (a + (((messageDetails lines).drop a).take 10).length)) (by omega)
            (a + (((messageDetails lines).drop a).take 10).length)
            (some (extendPhase c (messageIndices lines)
              (((messageDetails lines).drop a).take 10)
              (characteristicsOf (((messageDetails lines).drop a).take 10))))
            rfl (by omega) (by intro hcon; cases hcon)
            (by
              intro c' hc'
              rw [Option.some.injEq] at hc'
              subst hc'
              rw [hep_stop]
              constructor
              · show c.start ≤ _
                omega
              · push_cast
                omega)
          have happ2 : coversFromB ((extendPhase c (messageIndices lines)
                (((messageDetails lines).drop a).take 10)
                (characteristicsOf (((messageDetails lines).drop a).take 10))).start)
              (((messageDetails lines).length : Nat) : Int)
              (buildPhases (messageIndices lines)
                (windows10 ((messageDetails lines).drop
                  (a + (((messageDetails lines).drop a).take 10).length)))
                (some (extendPhase c (messageIndices lines)
                  (((messageDetails lines).drop a).take 10)
                  (characteristicsOf (((messageDetails lines).drop a).take 10))))) = true := happ
          rw [hdropstep] at happ2
          exact happ2

/-- The fold of `mergePhases` preserves exact rank coverage: a merge fuses two
consecutive ranges into one. -/
theorem mergeLoop_covers (n : Int) :
    ∀ (ps : List WorkPhase) (p : WorkPhase),
      coversFromB p.start n (p :: ps) = true →
      coversFromB p.start n (mergeLoop p ps) = true := by
  intro ps
  induction ps with
  | nil => intro p h; rw [mergeLoop]; exact h
  | cons q rest ih =>
    intro p h
    rw [coversFromB] at h
    simp only [Bool.and_eq_true, decide_eq_true_eq] at h
    obtain ⟨⟨⟨-, h2⟩, h3⟩, h4⟩ := h
    have h4' := h4
    rw [coversFromB] at h4'
    simp only [Bool.and_eq_true, decide_eq_true_eq] at h4'
    obtain ⟨⟨⟨hq1, hq2⟩, hq3⟩, hq4⟩ := h4'
    rw [mergeLoop]
    by_cases hm : q.description = p.description ∧ q.start - p.stop ≤ 3
    · rw [if_pos hm]
      have hmerged : coversFromB (mergedPhase p q).start n (mergedPhase p q :: rest) = true := by
        rw [coversFromB]
        simp only [mergedPhase, Bool.and_eq_true, decide_eq_true_eq]
        exact ⟨⟨⟨trivial, by omega⟩, hq3⟩, hq4⟩
      have := ih (mergedPhase p q) hmerged
      simpa [mergedPhase] using this
    · rw [if_neg hm, coversFromB]
      simp only [Bool.and_eq_true, decide_eq_true_eq]
      refine ⟨⟨⟨trivial, h2⟩, h3⟩, ?_⟩
      rw [← hq1]
      exact ih q (by rw [← hq1] at h4; exact h4)

theorem mergePhases_covers (n : Int) (ps : List WorkPhase) (a : Int)
    (h : coversFromB a n ps = true) :
    coversFromB a n (mergePhases ps) = true := by
  rw [mergePhases.eq_def]
  by_cases hlen : ps.length ≤ 1
  · rw [if_pos hlen]
    exact h
  · rw [if_neg hlen]
    cases ps with
    | nil => exact h
    | cons p rest =>
      show coversFromB a n (mergeLoop p rest) = true
      have hstart : p.start = a := by
        rw [coversFromB] at h
        simp only [Bool.and_eq_true, decide_eq_true_eq] at h
        exact h.1.1.1
      rw [← hstart] at h ⊢
      exact mergeLoop_covers n rest p h

/-- C2 (amended): over every non-empty turn sequence,
`detectWorkPhases` returns phases whose `start`/`end` values are ranks
in the compacted turn-only sequence (the results of
`messageIndices.indexOf`), not global line positions; in that rank
space they are ascending, non-overlapping, contiguous, and together
span every turn rank `0 … turnCount−1` exactly once. -/
theorem detectWorkPhases_covers (lines : List Line)
    (h : messageDetails lines ≠ []) :
    coversFromB 0 (((messageDetails lines).length : Nat) : Int)
      (detectWorkPhases lines) = true := by
  have hbp := buildPhases_coversFromB lines ((messageDetails lines).length) 0 none rfl
    (by omega) (fun _ => by simpa using h) (by intro c hc; cases hc)
  rw [List.drop_zero] at hbp
  simp only [detectWorkPhases, if_neg h]
  exact mergePhases_covers _ _ _ hbp

/-- A transcript with a single turn, at global position 1. -/
def exOneTurn : List Line := [metaLine, userLine]

/-- Counterexample to C2 as stated: on a session whose only turn sits at
global position 1, the single detected phase has `start = end = 0` (the
turn's rank), so phase positions are ranks in the compacted turn
sequence, not global line positions — they do not span the global turn
position set `{1}`. -/
theorem phases_rank_counterexample :
    (detectWorkPhases exOneTurn).map (fun p => (p.start, p.stop)) = [(0, 0)]
    ∧ messageIndices exOneTurn = [1] := by
  decide

/-- Witness for C2 (amended) at a 3-turn session. -/
theorem detectWorkPhases_covers_witness :
    coversFromB 0 (((messageDetails exThreeTurns).length : Nat) : Int)
      (detectWorkPhases exThreeTurns) = true :=
  detectWorkPhases_covers exThreeTurns (by decide)

/-- C7 (amended): for a nonempty analysis window all of whose turns are
user or assistant with zero tool uses, and on which no
higher-precedence rule fires, the label is
"Initial setup and requirements" iff the session has a 6th turn
(`messageIndices[5]` defined) and the window's first turn lies globally
before it; otherwise — including every session with fewer than 6
turns, where `messageIndices[5]` is `undefined` — the label is
"Discussion and planning". -/
theorem classifyPhase_setup_rule (mi : List Nat) (w : List MessageInfo)
    (hw : w ≠ [])
    (h1 : ¬ 10 * (characteristicsOf w).errors > 3 * w.length)
    (h2 : ¬ (10 * (characteristicsOf w).fileEdits > 3 * w.length
            ∨ 10 * (characteristicsOf w).codeBlocks > 4 * w.length))
    (h3 : w.all (fun m => m.type == "user" || m.type == "assistant") = true)
    (h4 : (characteristicsOf w).toolUses = 0) :
    (classifyPhase mi (characteristicsOf w) w = "Initial setup and requirements"
      ↔ ∃ v, mi[5]? = some v ∧ w.headI.index < v)
    ∧ (classifyPhase mi (characteristicsOf w) w = "Discussion and planning"
      ↔ ¬ ∃ v, mi[5]? = some v ∧ w.headI.index < v) := by
  have htotal : 1 ≤ w.length := List.length_pos.mpr hw
  have hrule3 : ¬ (10 * (characteristicsOf w).toolUses > 4 * w.length
      ∧ (characteristicsOf w).fileEdits = 0) := by
    rintro ⟨hgt, -⟩
    omega
  have hiff : jsLtOpt w.headI.index mi[5]? = true
      ↔ ∃ v, mi[5]? = some v ∧ w.headI.index < v := by
    cases h5 : mi[5]? with
    | none => simp [jsLtOpt]
    | some v => simp [jsLtOpt]
  simp only [classifyPhase]
  rw [if_neg h1, if_neg h2, if_neg hrule3, if_pos (And.intro h3 h4)]
  by_cases hj : jsLtOpt w.headI.index mi[5]? = true
  · rw [if_pos hj]
    exact ⟨iff_of_true rfl (hiff.mp hj),
      iff_of_false (by decide) (not_not_intro (hiff.mp hj))⟩
  · rw [if_neg hj]
    exact ⟨iff_of_false (by decide) (fun hex => hj (hiff.mpr hex)),
      iff_of_true rfl (fun hex => hj (hiff.mpr hex))⟩

/-- A 2-turn discussion-only transcript. -/
def exTwoTurns : List Line := [metaLine, userLine, asstLine]

/-- Counterexample to C7 as stated: this 2-turn session's single
window consists of user/assistant turns with no tool use and starts
within the first 6 turns globally, yet — because `messageIndices[5]`
is `undefined` for sessions with fewer than 6 turns — it is labeled
"Discussion and planning", not "Initial setup and requirements". -/
theorem setup_label_counterexample :
    (detectWorkPhases exTwoTurns).map (fun p => p.description) = ["Discussion and planning"]
    ∧ (messageDetails exTwoTurns).length = 2 := by
  decide

/-- Witness for C7 (amended) on the 6-turn alternating session, whose
first window does get the setup label. -/
theorem classifyPhase_setup_rule_witness :
    classifyPhase (messageIndices exAlternating)
        (characteristicsOf (messageDetails exAlternating))
        (messageDetails exAlternating) = "Initial setup and requirements"
      ↔ ∃ v, (messageIndices exAlternating)[5]? = some v
          ∧ (messageDetails exAlternating).headI.index < v :=
  (classifyPhase_setup_rule (messageIndices exAlternating) (messageDetails exAlternating)
    (by decide) (by decide) (by decide) (by decide) (by decide)).1

end ClaudePrune
